import Mathlib

/-!
Verification of the pisek trusted evaluation utilities (minibox supervisor and
the judge toolkit) against their specification.  The definitions below are a
shallow embedding of the C/C++ sources under src/pisek/tools: machine integers
are modelled as Nat with explicit reduction modulo 2^w where the C code relies
on wrap-around, byte strings are List Char, and the stateful scanners are
explicit state-passing functions.
-/

namespace Pisek

/-! ### Minibox: timeout checking (minibox.c, check_timeout)

Timeouts are in milliseconds, as in minibox.c where the -t, -w, -x seconds are
converted by 1000*atof.  check_timeout first tests the wall-clock limit and
then the CPU limit; err(...) terminates the process, which the sequential C
code renders as an if-chain.  A zero limit means "not set". -/

inductive TOKind where
  | wall
  | cpu
deriving DecidableEq

/-- minibox.c check_timeout: wall kill when wall_ms > wall_timeout; CPU kill
when ms > timeout and ms > extra_timeout. -/
def check_timeout (wall_timeout timeout extra_timeout wall_ms ms : Nat) : Option TOKind :=
  if wall_timeout ≠ 0 ∧ wall_timeout < wall_ms then some TOKind.wall
  else if timeout ≠ 0 ∧ timeout < ms ∧ extra_timeout < ms then some TOKind.cpu
  else none

/-! ### Minibox: environment rules (minibox.c, apply_env_rule / setup_environment)

An env entry is a byte string "VAR=value".  A rule's val is none for
inherit-from-parent, some [] for clear, some v for set-to-literal. -/

structure EnvRule where
  var : List Char
  val : Option (List Char)
deriving DecidableEq

/-- minibox.c match_env_var: entry starts with the rule's var followed by an
equals sign (strncmp over var_len, then entry[var_len] == '='). -/
def matches_var : List Char → List Char → Bool
  | e, [] => e.head? = some '='
  | [], _ :: _ => false
  | c :: e, v :: vs => c = v && matches_var e vs

/-- minibox.c apply_env_rule, removal part: the while loop finds the first
matching entry; env[pos] = env[--size] replaces it by the last entry and
shrinks the array (swap-remove). -/
def env_remove (p : List Char → Bool) : List (List Char) → List (List Char)
  | [] => []
  | x :: xs =>
    if p x then
      match xs.getLast? with
      | none => []
      | some l => l :: xs.dropLast
    else x :: env_remove p xs

/-- minibox.c apply_env_rule: remove the variable if already set, then append
the new value (literal, or the first matching entry of the parent environ for
an inherit rule; an empty literal clears without re-adding). -/
def apply_env_rule (parent : List (List Char)) (env : List (List Char)) (r : EnvRule) :
    List (List Char) :=
  match r.val with
  | some v =>
    if v = [] then env_remove (fun e => matches_var e r.var) env
    else env_remove (fun e => matches_var e r.var) env ++ [r.var ++ '=' :: v]
  | none =>
    match parent.find? (fun e => matches_var e r.var) with
    | none => env_remove (fun e => matches_var e r.var) env
    | some e => env_remove (fun e => matches_var e r.var) env ++ [e]

def LIBC_VAR : List Char := "LIBC_FATAL_STDERR_".data

/-- minibox.c default_env_rules: the one built-in rule LIBC_FATAL_STDERR_=1. -/
def default_env_rules : List EnvRule := [⟨LIBC_VAR, some ['1']⟩]

/-- minibox.c setup_environment: the built-in rules are linked in FRONT of the
user rules (the for loop prepends them to first_env_rule), the initial
environment is the parent environ when -e was given and empty otherwise, and
the rules are applied first to last. -/
def setup_environment (parent : List (List Char)) (pass_environ : Bool)
    (user_rules : List EnvRule) : List (List Char) :=
  (default_env_rules ++ user_rules).foldl (apply_env_rule parent)
    (if pass_environ then parent else [])

/-! ### Judgelib: buffered stream cursors (io.cc, judge.h)

Only the cursor arithmetic matters for the invariant claim: offsets are taken
from buf, so begin = 0 and end = BUFSIZE.  refill's len is what read(2)
returned, any value between 0 and BUFSIZE. -/

def BUFSIZE : Nat := 65536

structure JStream where
  pos : Nat
  stop : Nat
deriving DecidableEq

/-- io.cc stream::open_fd: pos = stop = buf. -/
def stream_open_fd : JStream := ⟨0, 0⟩

/-- io.cc stream::refill: pos = buf, stop = buf + len where len is what
read(2) returned. -/
def stream_refill (len : Nat) (_s : JStream) : JStream := ⟨0, len⟩

/-- judge.h stream::getc with io.cc getc_slow: fast path pos++, slow path
refill then pos++ when data arrived. -/
def stream_getc (len : Nat) (s : JStream) : JStream :=
  if s.pos < s.stop then ⟨s.pos + 1, s.stop⟩
  else if 0 < len then ⟨1, len⟩ else ⟨0, len⟩

/-- judge.h stream::peekc with io.cc peekc_slow: no cursor advance beyond the
refill. -/
def stream_peekc (len : Nat) (s : JStream) : JStream :=
  if s.pos < s.stop then s else ⟨0, len⟩

/-- judge.h stream::ungetc: pos-- (asserts pos > buf). -/
def stream_ungetc (s : JStream) : JStream := ⟨s.pos - 1, s.stop⟩

/-- io.cc stream::flush: writes out [buf,pos) for write streams, then
pos = buf; stop is untouched. -/
def stream_flush (s : JStream) : JStream := ⟨0, s.stop⟩

/-- judge.h stream::putc: flush when pos reached end, then store and pos++. -/
def stream_putc (s : JStream) : JStream :=
  if BUFSIZE ≤ s.pos then ⟨1, s.stop⟩ else ⟨s.pos + 1, s.stop⟩

/-- The cursor invariant claimed in the spec: begin ≤ pos ≤ stop ≤ end. -/
def claimed_inv (s : JStream) : Prop := s.pos ≤ s.stop ∧ s.stop ≤ BUFSIZE

/-- The invariant that actually holds on streams used for writing: stop stays
at begin and pos ranges over the page. -/
def write_inv (s : JStream) : Prop := s.stop = 0 ∧ s.pos ≤ BUFSIZE

/-! ### Judgelib: random generator (random.cc) -/

def M64 : Nat := 2 ^ 64

/-- random.cc rotl: (x << k) | (x >> (64 - k)) in u64 arithmetic. -/
def rotl (x k : Nat) : Nat := ((x <<< k) % M64) ||| (x >>> (64 - k))

/-- random.cc random_generator::next_u64 (xoroshiro128+): returns the draw and
the advanced two-word state. -/
def next_u64 (state : Nat × Nat) : Nat × (Nat × Nat) :=
  let s0 := state.1
  let s1 := state.2
  let result := (s0 + s1) % M64
  let s1x := s1 ^^^ s0
  (result, (rotl s0 55 ^^^ s1x ^^^ ((s1x <<< 14) % M64), rotl s1x 36))

/-- random.cc random_generator::next_u32: next_u64() >> 11 truncated to u32 by
the return type. -/
def next_u32 (state : Nat × Nat) : Nat × (Nat × Nat) :=
  let r := next_u64 state
  ((r.1 >>> 11) % 2 ^ 32, r.2)

/-! ### Judgelib: tokenizer (token.cc)

The tokenizer state is the remaining input, the 1-based line counter and the
report_lines flag; get_token returns the token (none at end of input, some []
for the end-of-line sentinel), the remaining input after the ungetc, and the
updated line counter.  The token-buffer growth (Token too long) and
allocation failure paths are not modelled: maxsize is treated as unbounded. -/

/-- token.cc is_white: space, tab, CR, LF. -/
def is_white (c : Char) : Bool := c = ' ' || c = '\t' || c = '\r' || c = '\n'

structure TokRes where
  tok : Option (List Char)
  rest : List Char
  line : Nat
deriving DecidableEq

/-- token.cc tokenizer::get_token: skip whitespace, counting newlines and
returning the empty sentinel on LF when report_lines is set; then accumulate
non-white bytes; any terminating whitespace (newline included) is ungot. -/
def get_token : List Char → Nat → Bool → TokRes
  | [], l, _ => ⟨none, [], l⟩
  | c :: rest, l, rl =>
    if c = '\n' then
      if rl then ⟨some [], rest, l + 1⟩
      else get_token rest (l + 1) rl
    else if is_white c then get_token rest l rl
    else ⟨some (c :: rest.takeWhile (fun d => !is_white d)),
          rest.dropWhile (fun d => !is_white d), l⟩

/-! ### Judgelib: numeric parsing (token.cc PARSE/to_double) and judge-token
token comparison (judge-token.cc tokens_equal)

Modelled from C strtod in the C locale, restricted to its decimal forms
(optional sign, digits with optional fraction, optional decimal exponent) with
exact rational semantics; hexadecimal floats, infinities, NaNs, rounding and
ERANGE are not modelled.  The PARSE macro demands that the whole token is
consumed, which the parser mirrors by returning none unless the entire byte
list matches. -/

/-- C isspace in the C locale (as used by the PARSE macro's leading check). -/
def c_isspace (c : Char) : Bool :=
  c = ' ' || c = '\t' || c = '\n' || c = '\x0b' || c = '\x0c' || c = '\r'

def digit (c : Char) : Bool := '0' ≤ c && c ≤ '9'

def digits_val (ds : List Char) : Nat := ds.foldl (fun n c => n * 10 + (c.toNat - 48)) 0

/-- Decimal exponent suffix: all remaining bytes must be digits. -/
def parse_exp_digits (s : List Char) (m : ℚ) (sgn : Int) : Option ℚ :=
  if s ≠ [] ∧ s.all digit then some (m * (10 : ℚ) ^ (sgn * (digits_val s : Int))) else none

/-- Optional exponent part e[+|-]digits applied to the mantissa m; anything
else left over means strtod would have stopped early and PARSE fails. -/
def parse_exp (s : List Char) (m : ℚ) : Option ℚ :=
  match s with
  | [] => some m
  | c :: r =>
    if c = 'e' ∨ c = 'E' then
      match r with
      | '+' :: r2 => parse_exp_digits r2 m 1
      | '-' :: r2 => parse_exp_digits r2 m (-1)
      | _ => parse_exp_digits r m 1
    else none

/-- Unsigned mantissa: digits [ . digits ] with at least one digit overall. -/
def parse_mant (s : List Char) : Option ℚ :=
  let ds := s.takeWhile digit
  let r1 := s.dropWhile digit
  match r1 with
  | '.' :: r2 =>
    let fs := r2.takeWhile digit
    let r3 := r2.dropWhile digit
    if ds.isEmpty && fs.isEmpty then none
    else parse_exp r3 ((digits_val ds : ℚ) + (digits_val fs : ℚ) / (10 : ℚ) ^ fs.length)
  | _ => if ds.isEmpty then none else parse_exp r1 (digits_val ds)

def parse_double (s : List Char) : Option ℚ :=
  match s with
  | '+' :: r => parse_mant r
  | '-' :: r => (parse_mant r).map (fun x => -x)
  | _ => parse_mant s

/-- token.cc tokenizer::to_double: empty tokens and tokens starting with
whitespace are rejected, otherwise strtod over the whole token. -/
def to_double (t : List Char) : Option ℚ :=
  match t with
  | [] => none
  | c :: _ => if c_isspace c then none else parse_double t

/-! ### judge-token.cc: options and token comparison -/

/-- judge-token.cc option state: -n, -t, -i, -r, -e, -E. -/
structure TokFlags where
  ignore_nl : Bool
  ignore_trailing_nl : Bool
  ignore_case : Bool
  real_mode : Bool
  rel_eps : ℚ
  abs_eps : ℚ
deriving DecidableEq

/-- judge-token.cc default for -e. -/
def rel_eps_default : ℚ := 1 / 100000

/-- judge-token.cc default for -E. -/
def abs_eps_default : ℚ := 1 / 10 ^ 30

/-- C tolower in the C locale, ASCII. -/
def c_tolower (c : Char) : Char :=
  if 'A' ≤ c ∧ c ≤ 'Z' then Char.ofNat (c.toNat + 32) else c

/-- strcmp or strcasecmp equality, per ignore_case. -/
def str_eq (icase : Bool) (a b : List Char) : Bool :=
  if icase then a.map c_tolower == b.map c_tolower else a == b

/-- judge-token.cc tokens_equal: in real mode, if both tokens convert as
doubles, equal values or difference within eps = max(fabs(x2*rel_eps),
abs_eps) accept; otherwise (and in non-real mode) string comparison. -/
def tokens_equal (fl : TokFlags) (a b : List Char) : Bool :=
  if fl.real_mode then
    match to_double a, to_double b with
    | some x1, some x2 =>
      if x1 = x2 then true
      else
        decide (|x1 - x2| ≤ (if |x2 * fl.rel_eps| < fl.abs_eps then fl.abs_eps
                             else |x2 * fl.rel_eps|))
    | _, _ => str_eq fl.ignore_case a b
  else str_eq fl.ignore_case a b

/-! ### judge-token.cc: main comparison loop

The loop is embedded with explicit fuel; judge_token_main supplies fuel
strictly greater than the contestant file length, which jt_loop_total (below)
shows is always enough, so the fuel-exhaustion branch is unreachable.  The
outcome records which tokenizer reject() was invoked on (t1 reads the
contestant output, t2 the reference), the line counter it printed and the
message. -/

inductive TFile where
  | outfile
  | reffile
deriving DecidableEq

inductive JOutcome where
  | accept
  | rejected (f : TFile) (line : Nat) (msg : List Char)
  | failed (msg : List Char)
deriving DecidableEq

/-- judge-token.cc trailing_nl: false unless the current token is the empty
sentinel and -t was given; otherwise turn report_lines off and succeed iff
get_token finds nothing further. -/
def trailing_ok (fl : TokFlags) (tok : List Char) (input : List Char) (line : Nat) : Bool :=
  if tok ≠ [] ∨ fl.ignore_trailing_nl = false then false
  else (get_token input line false).tok.isNone

def msg_ends_early : List Char := "Ends too early".data

def msg_garbage : List Char := "Garbage at the end".data

def msg_found (a b : List Char) : List Char :=
  "Found <".data ++ a ++ ">, expected <".data ++ b ++ ">".data

/-- judge-token.cc main loop: pull one token from each stream; handle the
one-sided end-of-input cases through trailing_nl, attributing "Ends too early"
to t1 (contestant) and "Garbage at the end" to t2 (reference); compare token
pairs with tokens_equal. -/
def jt_loop (fl : TokFlags) : Nat → List Char → List Char → Nat → Nat → JOutcome
  | 0, _, _, _, _ => JOutcome.failed "out of fuel".data
  | fuel + 1, in1, in2, l1, l2 =>
    match get_token in1 l1 (!fl.ignore_nl), get_token in2 l2 (!fl.ignore_nl) with
    | ⟨none, _, _⟩, ⟨none, _, _⟩ => JOutcome.accept
    | ⟨none, _, l1n⟩, ⟨some b, r2, l2n⟩ =>
      if trailing_ok fl b r2 l2n then JOutcome.accept
      else JOutcome.rejected TFile.outfile l1n msg_ends_early
    | ⟨some a, r1, l1n⟩, ⟨none, _, l2n⟩ =>
      if trailing_ok fl a r1 l1n then JOutcome.accept
      else JOutcome.rejected TFile.reffile l2n msg_garbage
    | ⟨some a, r1, l1n⟩, ⟨some b, r2, l2n⟩ =>
      if tokens_equal fl a b then jt_loop fl fuel r1 r2 l1n l2n
      else JOutcome.rejected TFile.outfile l1n (msg_found a b)

/-- Exit code and the stdout and stderr line lists of a judge-token run:
tokenizer::reject prints "Error at <name> line <N>: <msg>" to stderr and exits
43; acceptance prints nothing and exits 42; die (exit 44) prints its message.
Nothing is ever written to stdout. -/
def jt_render (n1 n2 : List Char) : JOutcome → Nat × List (List Char) × List (List Char)
  | JOutcome.accept => (42, [], [])
  | JOutcome.rejected f line msg =>
    (43, [], ["Error at ".data ++ (match f with | TFile.outfile => n1 | TFile.reffile => n2) ++
      " line ".data ++ Nat.toDigits 10 line ++ ": ".data ++ msg])
  | JOutcome.failed msg => (44, [], [msg])

/-- judge-token.cc main after option parsing: t1 opens the contestant output,
t2 the reference; a file that fails to open makes open_read die with exit 44
(the errno text of the C message is not modelled); both tokenizers start at
line 1 with report_lines = !ignore_nl. -/
def judge_token_main (fl : TokFlags) (n1 n2 : List Char) (f1 f2 : Option (List Char)) :
    Nat × List (List Char) × List (List Char) :=
  match f1 with
  | none => (44, [], ["Unable to open ".data ++ n1 ++ " for reading".data])
  | some c1 =>
    match f2 with
    | none => (44, [], ["Unable to open ".data ++ n2 ++ " for reading".data])
    | some c2 => jt_render n1 n2 (jt_loop fl (c1.length + 1) c1 c2 1 1)

/-! ### judge-shuffle.cc -/

/-- judge-shuffle.cc option state: -n, -e, -i, -l, -w. -/
structure ShuffleFlags where
  ignore_nl : Bool
  ignore_empty : Bool
  ignore_case : Bool
  shuffle_lines : Bool
  shuffle_words : Bool
deriving DecidableEq

/-- judge-shuffle.cc slurp's case fold: bytes a-z to upper case. -/
def c_toupper (c : Char) : Char :=
  if 'a' ≤ c ∧ c ≤ 'z' then Char.ofNat (c.toNat - 32) else c

/-- The full token stream of an input, as the successive results of
tokenizer::get_token (fuel-driven; the fuel judge_shuffle_main supplies always
suffices because every successful get_token consumes at least one byte).  The
line numbers are irrelevant to slurp, so getc starts the counter at 0. -/
def toks_of_fuel : Nat → List Char → Bool → List (List Char)
  | 0, _, _ => []
  | fuel + 1, input, rl =>
    match get_token input 0 rl with
    | ⟨none, _, _⟩ => []
    | ⟨some t, rem, _⟩ => t :: toks_of_fuel fuel rem rl

def toks_of (input : List Char) (rl : Bool) : List (List Char) :=
  toks_of_fuel (input.length + 1) input rl

/-- judge-shuffle.cc shuffler::slurp over the raw token stream: words are
case-folded when -i is set and always stored; a sentinel is dropped when nl is
still set and -e is given, otherwise stored; at end of input a sentinel is
appended when the last raw token was a word (nl clear).  nl starts true. -/
def slurp_toks (fl : ShuffleFlags) : List (List Char) → Bool → List (List Char)
  | [], nl => if nl then [] else [[]]
  | t :: ts, nl =>
    if t ≠ [] then
      (if fl.ignore_case then t.map c_toupper else t) :: slurp_toks fl ts false
    else if fl.ignore_nl = false then
      if nl && fl.ignore_empty then slurp_toks fl ts nl
      else t :: slurp_toks fl ts true
    else t :: slurp_toks fl ts nl

/-- judge-shuffle.cc shuffler::slurp applied to a file's bytes. -/
def slurp (fl : ShuffleFlags) (input : List Char) : List (List Char) :=
  slurp_toks fl (toks_of input (!fl.ignore_nl)) true

/-- Reformulation of slurp's suppression rule for the amended claim C6, in
terms of the previous raw token: with -e set (and newlines reported), a
sentinel is dropped exactly when there is no previous raw token or the
previous raw token is itself a sentinel; the final sentinel is appended
exactly when the last raw token was a word. -/
def slurp_keep (fl : ShuffleFlags) : Option (List Char) → List (List Char) → List (List Char)
  | prev, [] =>
    match prev with
    | some (_ :: _) => [[]]
    | _ => []
  | prev, t :: ts =>
    if t = [] ∧ fl.ignore_empty = true ∧ fl.ignore_nl = false ∧
        (prev = none ∨ prev = some []) then
      slurp_keep fl (some t) ts
    else
      (if t ≠ [] ∧ fl.ignore_case = true then t.map c_toupper else t) :: slurp_keep fl (some t) ts

/-! Token and line hashing and comparison (judge-shuffle.cc tok and line).
A tok is represented by its byte list; its hash field is recomputed by the
hash function, which is faithful because compute_hash is a function of the
bytes.  The fold reads bytes through a plain C char, which is signed, so
bytes at and above 0x80 contribute their value minus 256 modulo 2^32. -/

def sbyte (c : Char) : Nat := if c.toNat < 128 then c.toNat else c.toNat + (2 ^ 32 - 256)

/-- judge-shuffle.cc tok::compute_hash: h starts at 1, h = h * 0x6011 + byte
in uint arithmetic. -/
def tok_hash (t : List Char) : Nat :=
  t.foldl (fun h c => (h * 24593 + sbyte c) % 2 ^ 32) 1

/-- judge-shuffle.cc line::compute_hash: the same fold over the token hashes
of the line (computed after the optional -w word sort). -/
def line_hash (ts : List (List Char)) : Nat :=
  ts.foldl (fun h t => (h * 24593 + tok_hash t) % 2 ^ 32) 1

/-- C strcmp, which compares as unsigned char; Char order is codepoint
order. -/
def strcmp : List Char → List Char → Ordering
  | [], [] => Ordering.eq
  | [], _ :: _ => Ordering.lt
  | _ :: _, [] => Ordering.gt
  | a :: as, b :: bs =>
    if a < b then Ordering.lt else if b < a then Ordering.gt else strcmp as bs

/-- Compare first by a Nat key, breaking ties with an inner comparison; the
shape of tok::compare and line::compare. -/
def natkey_cmp {α : Type} (f : α → Nat) (c : α → α → Ordering) (a b : α) : Ordering :=
  if f a < f b then Ordering.lt else if f b < f a then Ordering.gt else c a b

/-- judge-shuffle.cc tok::compare: hash first, then strcmp. -/
def tok_cmp : List Char → List Char → Ordering := natkey_cmp tok_hash strcmp

/-- judge-shuffle.cc line::compare tail: pointwise tok::compare, extended
lexicographically (line::compare only reaches it with equal lengths). -/
def toks_cmp : List (List Char) → List (List Char) → Ordering
  | [], [] => Ordering.eq
  | [], _ :: _ => Ordering.lt
  | _ :: _, [] => Ordering.gt
  | a :: as, b :: bs =>
    match tok_cmp a b with
    | Ordering.eq => toks_cmp as bs
    | o => o

/-- judge-shuffle.cc line::compare: hash, then length, then pointwise token
comparison. -/
def line_cmp : List (List Char) → List (List Char) → Ordering :=
  natkey_cmp line_hash (natkey_cmp List.length toks_cmp)

/-- The sort order on toks: operator< is compare < 0; sorting by the
reflexive closure compare ≤ 0 yields the same sorted sequence because the
order is total and antisymmetric. -/
def tok_le (a b : List Char) : Prop := tok_cmp a b ≠ Ordering.gt

instance tok_le_dec : DecidableRel tok_le :=
  fun a b => show Decidable (tok_cmp a b ≠ Ordering.gt) from inferInstance

def line_le (a b : List (List Char)) : Prop := line_cmp a b ≠ Ordering.gt

instance line_le_dec : DecidableRel line_le :=
  fun a b => show Decidable (line_cmp a b ≠ Ordering.gt) from inferInstance

/-- judge-shuffle.cc shuffler line: the tokens of the line plus its original
1-based line number (the hash is recomputed from the tokens when needed). -/
structure SLine where
  toks : List (List Char)
  orig : Nat
deriving DecidableEq

def sline_le (p q : SLine) : Prop := line_le p.toks q.toks

instance sline_le_dec : DecidableRel sline_le :=
  fun p q => show Decidable (line_le p.toks q.toks) from inferInstance

/-- judge-shuffle.cc shuffler::read grouping: every sentinel closes the
current line; material after the last sentinel would fail the assert
l->toks == t and is dropped here (slurp guarantees there is none). -/
def split_lines : List (List Char) → List (List (List Char))
  | [] => []
  | t :: rest =>
    if t = [] then [] :: split_lines rest
    else
      match split_lines rest with
      | [] => []
      | l :: ls => (t :: l) :: ls

/-- The -w word sort inside one line (std::sort over tok::operator<). -/
def wsort (sw : Bool) (l : List (List Char)) : List (List Char) :=
  if sw then List.insertionSort tok_le l else l

/-- orig_line numbering: ++num_lines as each line is closed. -/
def number_lines : Nat → List (List (List Char)) → List SLine
  | _, [] => []
  | n, l :: ls => ⟨l, n⟩ :: number_lines (n + 1) ls

/-- judge-shuffle.cc shuffler::read: group the stored tokens into lines, sort
the words of each line when -w is given (before the line hashes are used). -/
def mk_lines (sw : Bool) (stored : List (List Char)) : List SLine :=
  number_lines 1 ((split_lines stored).map (wsort sw))

/-- The -l line sort (std::sort over line::operator<). -/
def sort_lines (sl : Bool) (s : List SLine) : List SLine :=
  if sl then List.insertionSort sline_le s else s

def shuffle_read (sw sl : Bool) (stored : List (List Char)) : List SLine :=
  sort_lines sl (mk_lines sw stored)

inductive SOutcome where
  | ok
  | bad (msg : List Char)
deriving DecidableEq

def msg_line_count (n m : Nat) : List Char :=
  "Output has ".data ++ Nat.toDigits 10 n ++ " lines, expecting ".data ++ Nat.toDigits 10 m

def msg_line_mismatch (k : Nat) : List Char :=
  "Line ".data ++ Nat.toDigits 10 k ++ " does not match".data

/-- judge-shuffle.cc compare, inner loop: first line pair that compares
unequal rejects with the contestant line's original number.  The
unequal-length fallback is unreachable because compare checks the counts
first. -/
def compare_lines : List SLine → List SLine → SOutcome
  | [], [] => SOutcome.ok
  | l1 :: r1, l2 :: r2 =>
    if line_cmp l1.toks l2.toks ≠ Ordering.eq then SOutcome.bad (msg_line_mismatch l1.orig)
    else compare_lines r1 r2
  | _, _ => SOutcome.bad "line count mismatch".data

/-- judge-shuffle.cc compare: line counts first, then the pairwise loop. -/
def sh_compare (s1 s2 : List SLine) : SOutcome :=
  if s1.length ≠ s2.length then SOutcome.bad (msg_line_count s1.length s2.length)
  else compare_lines s1 s2

/-- The accept/reject verdict of judge-shuffle on two ingested token buffers
(true = exit 42). -/
def sh_accepts (sw sl : Bool) (st1 st2 : List (List Char)) : Bool :=
  decide (sh_compare (shuffle_read sw sl st1) (shuffle_read sw sl st2) = SOutcome.ok)

/-- judge-shuffle.cc main after option parsing; reject() has no file or line
prefix; acceptance prints nothing; nothing goes to stdout. -/
def judge_shuffle_main (fl : ShuffleFlags) (n1 n2 : List Char) (f1 f2 : Option (List Char)) :
    Nat × List (List Char) × List (List Char) :=
  match f1 with
  | none => (44, [], ["Unable to open ".data ++ n1 ++ " for reading".data])
  | some c1 =>
    match f2 with
    | none => (44, [], ["Unable to open ".data ++ n2 ++ " for reading".data])
    | some c2 =>
      match sh_compare (shuffle_read fl.shuffle_words fl.shuffle_lines (slurp fl c1))
          (shuffle_read fl.shuffle_words fl.shuffle_lines (slurp fl c2)) with
      | SOutcome.ok => (42, [], [])
      | SOutcome.bad m => (43, [], [m])

/-- The token buffer of a file whose lines are the given lists of words: each
line's words followed by one newline sentinel. -/
def lines_to_stored (ls : List (List (List Char))) : List (List Char) :=
  (ls.map (fun l => l ++ [[]])).flatten

end Pisek

namespace Pisek

/-! ## Supporting lemmas -/

theorem matches_var_entry {v0 v rest : List Char} (h0 : '=' ∉ v0) (h : '=' ∉ v)
    (hm : matches_var (v0 ++ '=' :: rest) v = true) : v = v0 := by
  induction v0 generalizing v with
  | nil =>
    cases v with
    | nil => rfl
    | cons c vs =>
      exfalso
      simp only [List.nil_append, matches_var, Bool.and_eq_true, decide_eq_true_eq] at hm
      exact h (by rw [hm.1]; exact List.mem_cons_self _ _)
  | cons a as ih =>
    cases v with
    | nil =>
      exfalso
      simp only [List.cons_append, matches_var, List.head?_cons, Option.some.injEq,
        decide_eq_true_eq] at hm
      exact h0 (by rw [hm]; exact List.mem_cons_self _ _)
    | cons c vs =>
      simp only [List.cons_append, matches_var, Bool.and_eq_true, decide_eq_true_eq] at hm
      have h0' : '=' ∉ as := fun hmem => h0 (List.mem_cons_of_mem _ hmem)
      have h' : '=' ∉ vs := fun hmem => h (List.mem_cons_of_mem _ hmem)
      rw [ih h0' h' hm.2, hm.1]

theorem env_remove_mem {p : List Char → Bool} {x : List Char} {env : List (List Char)}
    (hx : x ∈ env) (hp : p x = false) : x ∈ env_remove p env := by
  induction env with
  | nil => cases hx
  | cons y ys ih =>
    by_cases hy : p y = true
    · have hxy : x ∈ ys := by
        rcases List.mem_cons.mp hx with h | h
        · exact absurd (h ▸ hp) (by simp [hy])
        · exact h
      have hne : ys ≠ [] := List.ne_nil_of_mem hxy
      simp only [env_remove, hy, if_true]
      rw [List.getLast?_eq_getLast ys hne]
      have hsplit : x ∈ ys.dropLast ++ [ys.getLast hne] := by
        rw [List.dropLast_append_getLast hne]; exact hxy
      rcases List.mem_append.mp hsplit with h | h
      · exact List.mem_cons_of_mem _ h
      · simp only [List.mem_singleton] at h
        exact h ▸ List.mem_cons_self _ _
    · simp only [env_remove, hy, if_false]
      rcases List.mem_cons.mp hx with h | h
      · exact h ▸ List.mem_cons_self _ _
      · exact List.mem_cons_of_mem _ (ih h)

theorem apply_env_rule_mem {parent env : List (List Char)} {r : EnvRule} {x : List Char}
    (hx : x ∈ env) (hm : matches_var x r.var = false) :
    x ∈ apply_env_rule parent env r := by
  have h1 : x ∈ env_remove (fun e => matches_var e r.var) env := env_remove_mem hx hm
  obtain ⟨rv, rval⟩ := r
  cases rval with
  | some v =>
    by_cases hv : v = []
    · show x ∈ if v = [] then _ else _
      rw [if_pos hv]; exact h1
    · show x ∈ if v = [] then _ else _
      rw [if_neg hv]; exact List.mem_append_left _ h1
  | none =>
    show x ∈ (match parent.find? (fun e => matches_var e rv) with
      | none => env_remove (fun e => matches_var e rv) env
      | some e => env_remove (fun e => matches_var e rv) env ++ [e])
    cases parent.find? (fun e => matches_var e rv) with
    | none => exact h1
    | some e => exact List.mem_append_left _ h1

theorem apply_set_mem (parent env : List (List Char)) (var v : List Char) (hv : v ≠ []) :
    var ++ '=' :: v ∈ apply_env_rule parent env ⟨var, some v⟩ := by
  show var ++ '=' :: v ∈ if v = [] then _ else _ ++ [var ++ '=' :: v]
  rw [if_neg hv]
  exact List.mem_append_right _ (List.mem_singleton.mpr rfl)

theorem foldl_env_mem {parent : List (List Char)} {x : List Char} :
    ∀ (rules : List EnvRule) (env : List (List Char)), x ∈ env →
    (∀ r ∈ rules, matches_var x r.var = false) →
    x ∈ rules.foldl (apply_env_rule parent) env := by
  intro rules
  induction rules with
  | nil => intro env hx _; simpa using hx
  | cons r rs ih =>
    intro env hx hall
    simp only [List.foldl_cons]
    exact ih _ (apply_env_rule_mem hx (hall r (List.mem_cons_self _ _)))
      (fun q hq => hall q (List.mem_cons_of_mem _ hq))

/-! ## Claim theorems -/

/-- Claim C1: in minibox --run with a CPU limit T and an extra grace X both
set, a sampled CPU time that exceeds T while the extra grace deadline X has
not yet elapsed does not trigger the time-exceeded kill; the TO kill for CPU
time fires exactly when both T and X have been exceeded.  (minibox.c
check_timeout; the extra timeout is the absolute instant "before which a
timing-out program is not yet killed", per the program's own usage text.) -/
theorem c1_extra_time_grace (W T X wms ms : Nat) (hT : 0 < T) (hX : 0 < X)
    (hW : W = 0 ∨ wms ≤ W) :
    (T < ms → ms ≤ X → check_timeout W T X wms ms = none) ∧
    (check_timeout W T X wms ms = some TOKind.cpu ↔ T < ms ∧ X < ms) := by
  have h1 : ¬(W ≠ 0 ∧ W < wms) := by rcases hW with h | h <;> omega
  constructor
  · intro h2 h3
    rw [check_timeout, if_neg h1, if_neg (by omega : ¬(T ≠ 0 ∧ T < ms ∧ X < ms))]
  · rw [check_timeout, if_neg h1]
    by_cases h2 : T ≠ 0 ∧ T < ms ∧ X < ms
    · rw [if_pos h2]
      exact ⟨fun _ => ⟨h2.2.1, h2.2.2⟩, fun _ => rfl⟩
    · rw [if_neg h2]
      refine ⟨fun h => Option.noConfusion h, fun h => absurd ⟨?_, h.1, h.2⟩ h2⟩
      omega

/-- Witness for C1 at W = 0, T = 1000 ms, X = 2000 ms, ms = 1500. -/
theorem c1_witness :
    (0 < 1000 ∧ 0 < 2000 ∧ ((0 : Nat) = 0 ∨ (0 : Nat) ≤ 0)) ∧
    ((1000 < 1500 → 1500 ≤ 2000 → check_timeout 0 1000 2000 0 1500 = none) ∧
     (check_timeout 0 1000 2000 0 1500 = some TOKind.cpu ↔ 1000 < 1500 ∧ 2000 < 1500)) :=
  ⟨⟨by decide, by decide, Or.inl rfl⟩,
   c1_extra_time_grace 0 1000 2000 0 1500 (by decide) (by decide) (Or.inl rfl)⟩

/-- Counterexample to claim C2: the built-in LIBC_FATAL_STDERR_ rule is linked
in front of the user rules, so a user -E rule for the same variable is applied
after it and wins; with the user rule LIBC_FATAL_STDERR_=0 the child
environment does not contain LIBC_FATAL_STDERR_=1. -/
theorem c2_counterexample :
    setup_environment [] false [⟨LIBC_VAR, some ['0']⟩] = [LIBC_VAR ++ '=' :: ['0']] ∧
    LIBC_VAR ++ '=' :: ['1'] ∉ setup_environment [] false [⟨LIBC_VAR, some ['0']⟩] := by
  decide

/-- Claim C2 as amended: the built-in rule setting LIBC_FATAL_STDERR_ to 1 is
applied BEFORE all user-supplied -E rules, so the child's environment contains
LIBC_FATAL_STDERR_=1 whenever no user rule names that variable (a user rule
for it would override the built-in one). -/
theorem c2_amended (parent : List (List Char)) (pass : Bool) (user_rules : List EnvRule)
    (h : ∀ r ∈ user_rules, r.var ≠ LIBC_VAR ∧ '=' ∉ r.var) :
    LIBC_VAR ++ '=' :: ['1'] ∈ setup_environment parent pass user_rules := by
  have hLV : ('=' : Char) ∉ LIBC_VAR := by decide
  unfold setup_environment default_env_rules
  simp only [List.cons_append, List.nil_append, List.foldl_cons]
  apply foldl_env_mem
  · exact apply_set_mem parent _ LIBC_VAR ['1'] (by decide)
  · intro r hr
    by_contra hmt
    have hm : matches_var (LIBC_VAR ++ '=' :: ['1']) r.var = true := by
      cases hq : matches_var (LIBC_VAR ++ '=' :: ['1']) r.var
      · exact absurd hq hmt
      · rfl
    exact (h r hr).1 (matches_var_entry hLV (h r hr).2 hm)

/-- Witness for C2 at a concrete parent environment and one unrelated user
rule. -/
theorem c2_witness :
    (∀ r ∈ [(⟨['P','A','T','H'], some ['x']⟩ : EnvRule)], r.var ≠ LIBC_VAR ∧ '=' ∉ r.var) ∧
    LIBC_VAR ++ '=' :: ['1'] ∈
      setup_environment [['H','O','M','E','=','h']] true [⟨['P','A','T','H'], some ['x']⟩] :=
  ⟨by decide,
   c2_amended [['H','O','M','E','=','h']] true [⟨['P','A','T','H'], some ['x']⟩] (by decide)⟩

/-- Counterexample to claim C5: the cursor invariant pos ≤ stop fails for
write streams; a freshly opened stream satisfies it, but a single putc leaves
pos = 1 past stop = 0. -/
theorem c5_counterexample :
    claimed_inv stream_open_fd ∧ ¬ claimed_inv (stream_putc stream_open_fd) :=
  ⟨⟨Nat.le_refl 0, Nat.zero_le _⟩, fun hc => absurd hc.1 (by decide)⟩

/-- Claim C5 as amended: streams used for reading (open, refill, getc, peekc,
ungetc) preserve begin ≤ pos ≤ stop ≤ end, while streams used for writing
(open, putc, flush) keep stop at begin and preserve begin ≤ pos ≤ end; the
claimed chain pos ≤ stop does not hold on the write side. -/
theorem c5_amended (s t : JStream) (len : Nat)
    (hs : claimed_inv s) (ht : write_inv t) (hlen : len ≤ BUFSIZE) :
    claimed_inv stream_open_fd ∧
    claimed_inv (stream_refill len s) ∧
    claimed_inv (stream_getc len s) ∧
    claimed_inv (stream_peekc len s) ∧
    (0 < s.pos → claimed_inv (stream_ungetc s)) ∧
    write_inv stream_open_fd ∧
    write_inv (stream_putc t) ∧
    write_inv (stream_flush t) := by
  obtain ⟨hs1, hs2⟩ := hs
  obtain ⟨ht1, ht2⟩ := ht
  have hB : 0 < BUFSIZE := by decide
  refine ⟨⟨Nat.le_refl 0, Nat.zero_le _⟩, ⟨Nat.zero_le _, hlen⟩, ?_, ?_, ?_,
    ⟨rfl, Nat.zero_le _⟩, ?_, ⟨ht1, Nat.zero_le _⟩⟩
  · unfold stream_getc
    split_ifs with h1 h2
    · exact ⟨h1, hs2⟩
    · exact ⟨h2, hlen⟩
    · exact ⟨Nat.zero_le _, hlen⟩
  · unfold stream_peekc
    split_ifs with h1
    · exact ⟨hs1, hs2⟩
    · exact ⟨Nat.zero_le _, hlen⟩
  · intro _
    exact ⟨Nat.le_trans (Nat.sub_le s.pos 1) hs1, hs2⟩
  · unfold stream_putc
    split_ifs with h1
    · exact ⟨ht1, hB⟩
    · refine ⟨ht1, ?_⟩
      show t.pos + 1 ≤ BUFSIZE
      omega

/-- Witness for C5 at a concrete read-stream state, write-stream state and
refill length. -/
theorem c5_witness :
    claimed_inv ⟨1, 3⟩ ∧ write_inv ⟨5, 0⟩ ∧ 7 ≤ BUFSIZE ∧
    (claimed_inv stream_open_fd ∧
     claimed_inv (stream_refill 7 ⟨1, 3⟩) ∧
     claimed_inv (stream_getc 7 ⟨1, 3⟩) ∧
     claimed_inv (stream_peekc 7 ⟨1, 3⟩) ∧
     (0 < (⟨1, 3⟩ : JStream).pos → claimed_inv (stream_ungetc ⟨1, 3⟩)) ∧
     write_inv stream_open_fd ∧
     write_inv (stream_putc ⟨5, 0⟩) ∧
     write_inv (stream_flush ⟨5, 0⟩)) :=
  ⟨⟨by decide, by decide⟩, ⟨rfl, by decide⟩, by decide,
   c5_amended ⟨1, 3⟩ ⟨5, 0⟩ 7 ⟨by decide, by decide⟩ ⟨rfl, by decide⟩ (by decide)⟩

/-- Claim C7: next_u32 returns the value next_u64 would have produced from the
same state shifted right by 11 bits and truncated to 32 bits, advancing the
state exactly as next_u64 does; bit i of the result is bit 11+i of the 64-bit
draw for i < 32. -/
theorem c7_next_u32_shift (s : Nat × Nat) :
    (next_u32 s).1 = ((next_u64 s).1 >>> 11) % 2 ^ 32 ∧
    (next_u32 s).2 = (next_u64 s).2 ∧
    ∀ i : Nat, ((next_u32 s).1).testBit i =
      (decide (i < 32) && ((next_u64 s).1).testBit (11 + i)) := by
  refine ⟨rfl, rfl, ?_⟩
  intro i
  show ((((next_u64 s).1 >>> 11) % 2 ^ 32).testBit i) = _
  rw [Nat.testBit_mod_two_pow, Nat.testBit_shiftRight]


theorem dropWhile_head_not {α : Type} {p : α → Bool} :
    ∀ (l : List α) (c : α), (l.dropWhile p).head? = some c → p c = false := by
  intro l
  induction l with
  | nil => intro c h; cases h
  | cons a as ih =>
    intro c h
    rw [List.dropWhile_cons] at h
    by_cases hp : p a
    · rw [if_pos hp] at h
      exact ih c h
    · rw [if_neg hp] at h
      cases h
      exact Bool.eq_false_iff.mpr hp

theorem get_token_rest_lt :
    ∀ (input : List Char) (l : Nat) (rl : Bool) {t rem : List Char} {l2 : Nat},
    get_token input l rl = ⟨some t, rem, l2⟩ → rem.length < input.length := by
  intro input
  induction input with
  | nil => intro l rl t rem l2 h; cases h
  | cons c rest ih =>
    intro l rl t rem l2 h
    rw [get_token] at h
    by_cases hc : c = '\n'
    · rw [if_pos hc] at h
      cases rl with
      | true =>
        cases h
        simp
      | false =>
        exact Nat.lt_trans (ih (l + 1) false h) (Nat.lt_succ_self _)
    · rw [if_neg hc] at h
      by_cases hw : is_white c
      · rw [if_pos hw] at h
        exact Nat.lt_trans (ih l rl h) (Nat.lt_succ_self _)
      · rw [if_neg hw] at h
        cases h
        exact Nat.lt_succ_of_le ((List.dropWhile_sublist _).length_le)

/-- Counterexample to claim C4: a token terminated by a newline is returned
with the newline pushed back onto the stream (still at the head of the
remaining input) and the line counter not yet incremented; the claim predicted
remaining input [] and line 2. -/
theorem c4_counterexample :
    get_token ['a', '\n'] 1 true = ⟨some ['a'], ['\n'], 1⟩ ∧
    ¬ ((get_token ['a', '\n'] 1 true).rest = [] ∧ (get_token ['a', '\n'] 1 true).line = 2) := by
  decide

/-- Claim C4 as amended: when get_token returns a non-empty token, ALL
terminating whitespace (a terminating newline included) is pushed back onto
the stream, so the remaining input begins with that whitespace byte; newlines
are counted only while skipping leading whitespace, so the line counter at
return accounts only for the newlines before the token, never for its
terminator. -/
theorem c4_amended (input : List Char) (l : Nat) (rl : Bool) (t rem : List Char) (l2 : Nat)
    (hg : get_token input l rl = ⟨some t, rem, l2⟩) (ht : t ≠ []) :
    (∀ c ∈ t, is_white c = false) ∧
    (∀ c, rem.head? = some c → is_white c = true) ∧
    ∃ ws, input = ws ++ t ++ rem ∧ (∀ c ∈ ws, is_white c = true) ∧
      l2 = l + ws.count '\n' ∧ (rl = true → '\n' ∉ ws) := by
  induction input generalizing l with
  | nil => cases hg
  | cons c rest ih =>
    rw [get_token] at hg
    by_cases hc : c = '\n'
    · rw [if_pos hc] at hg
      cases rl with
      | true => cases hg; exact absurd rfl ht
      | false =>
        obtain ⟨h1, h2, ws, hws1, hws2, hws3, _⟩ := ih (l + 1) hg
        refine ⟨h1, h2, '\n' :: ws, ?_, ?_, ?_, ?_⟩
        · rw [hc, hws1]; rfl
        · intro d hd
          rcases List.mem_cons.mp hd with h | h
          · rw [h]; rfl
          · exact hws2 d h
        · have hcnt : List.count '\n' ('\n' :: ws) = List.count '\n' ws + 1 := by simp
          rw [hcnt]
          omega
        · intro habs; cases habs
    · rw [if_neg hc] at hg
      by_cases hw : is_white c
      · rw [if_pos hw] at hg
        obtain ⟨h1, h2, ws, hws1, hws2, hws3, hws4⟩ := ih l hg
        refine ⟨h1, h2, c :: ws, ?_, ?_, ?_, ?_⟩
        · rw [hws1]; rfl
        · intro d hd
          rcases List.mem_cons.mp hd with h | h
          · rw [h]; exact hw
          · exact hws2 d h
        · have hbe : ((c : Char) == '\n') = false := beq_eq_false_iff_ne.mpr hc
          have hcnt : List.count '\n' (c :: ws) = List.count '\n' ws := by
            rw [List.count_cons, hbe]
            simp
          rw [hcnt]
          omega
        · intro hrl
          intro hmem
          rcases List.mem_cons.mp hmem with h | h
          · exact hc h.symm
          · exact hws4 hrl h
      · rw [if_neg hw] at hg
        cases hg
        refine ⟨?_, ?_, [], ?_, ?_, ?_, ?_⟩
        · intro d hd
          rcases List.mem_cons.mp hd with h | h
          · rw [h]; exact Bool.eq_false_iff.mpr hw
          · have := List.mem_takeWhile_imp h
            simpa using this
        · intro d hd
          have := dropWhile_head_not _ _ hd
          simpa using this
        · simp
        · intro d hd; cases hd
        · simp
        · intro _ hd; cases hd

/-- Witness for C4: a token preceded by a newline and a space and terminated
by a space; the decomposition returns the leading whitespace run, the counted
newline, and the pushed-back terminator. -/
theorem c4_witness :
    get_token ['\n', ' ', 'a', ' ', 'b'] 1 false = ⟨some ['a'], [' ', 'b'], 2⟩ ∧
    (['a'] : List Char) ≠ [] ∧
    ((∀ c ∈ ['a'], is_white c = false) ∧
     (∀ c, ([' ', 'b'] : List Char).head? = some c → is_white c = true) ∧
     ∃ ws, ['\n', ' ', 'a', ' ', 'b'] = ws ++ ['a'] ++ [' ', 'b'] ∧
       (∀ c ∈ ws, is_white c = true) ∧
       2 = 1 + ws.count '\n' ∧ (false = true → '\n' ∉ ws)) :=
  ⟨by decide, by decide,
   c4_amended ['\n', ' ', 'a', ' ', 'b'] 1 false ['a'] [' ', 'b'] 2 (by decide) (by decide)⟩


/-- Claim C9: in judge-token real mode, when both tokens parse fully as
doubles the pair is accepted iff |x1 - x2| <= max(|x2| * rel_eps, abs_eps),
with the defaults rel_eps = 1e-5 and abs_eps = 1e-30; when either token fails
to parse, the tokens are compared as strings, case-insensitively exactly when
ignore_case is set.  (The doubles are evaluated exactly over the rationals.) -/
theorem c9_real_mode_tolerance (fl : TokFlags) (hreal : fl.real_mode = true)
    (hrel : 0 ≤ fl.rel_eps) (a b : List Char) :
    (rel_eps_default = 1 / 100000 ∧ abs_eps_default = 1 / 10 ^ 30) ∧
    (∀ x1 x2 : ℚ, to_double a = some x1 → to_double b = some x2 →
      (tokens_equal fl a b = true ↔ |x1 - x2| ≤ max (|x2| * fl.rel_eps) fl.abs_eps)) ∧
    ((to_double a = none ∨ to_double b = none) →
      tokens_equal fl a b = str_eq fl.ignore_case a b) := by
  have heps : |(fl.abs_eps * 0 : ℚ)| = 0 := by simp
  refine ⟨⟨rfl, rfl⟩, ?_, ?_⟩
  · intro x1 x2 h1 h2
    have hmax : (if |x2 * fl.rel_eps| < fl.abs_eps then fl.abs_eps else |x2 * fl.rel_eps|) =
        max (|x2| * fl.rel_eps) fl.abs_eps := by
      rw [abs_mul, abs_of_nonneg hrel]
      by_cases hlt : |x2| * fl.rel_eps < fl.abs_eps
      · rw [if_pos hlt, max_eq_right (le_of_lt hlt)]
      · rw [if_neg hlt, max_eq_left (le_of_not_lt hlt)]
    rw [tokens_equal, hreal, if_pos rfl, h1, h2]
    dsimp only
    by_cases hx : x1 = x2
    · rw [if_pos hx]
      constructor
      · intro _
        rw [hx, sub_self, abs_zero]
        exact le_max_of_le_left (mul_nonneg (abs_nonneg _) hrel)
      · intro _
        rfl
    · rw [if_neg hx, hmax, decide_eq_true_iff]
  · intro h
    rw [tokens_equal, hreal, if_pos rfl]
    rcases h with h | h
    · rw [h]
    · rw [h]
      rcases ha : to_double a with _ | y <;> rfl

/-- Witness for C9 on the tokens "1" and "2" with the default tolerances. -/
theorem c9_witness :
    ((⟨false, false, false, true, 1 / 100000, 1 / 10 ^ 30⟩ : TokFlags).real_mode = true ∧
     (0 : ℚ) ≤ (⟨false, false, false, true, 1 / 100000, 1 / 10 ^ 30⟩ : TokFlags).rel_eps ∧
     to_double ['1'] = some 1 ∧ to_double ['2'] = some 2) ∧
    (tokens_equal ⟨false, false, false, true, 1 / 100000, 1 / 10 ^ 30⟩ ['1'] ['2'] = true ↔
      |(1 : ℚ) - 2| ≤ max (|(2 : ℚ)| * (1 / 100000)) (1 / 10 ^ 30)) :=
  ⟨⟨rfl, by norm_num, by decide, by decide⟩,
   (c9_real_mode_tolerance ⟨false, false, false, true, 1 / 100000, 1 / 10 ^ 30⟩ rfl
     (by norm_num) ['1'] ['2']).2.1 1 2 (by decide) (by decide)⟩


theorem jt_loop_total (fl : TokFlags) :
    ∀ (fuel : Nat) (in1 in2 : List Char) (l1 l2 : Nat), in1.length < fuel →
    jt_loop fl fuel in1 in2 l1 l2 = JOutcome.accept ∨
    ∃ f ln m, jt_loop fl fuel in1 in2 l1 l2 = JOutcome.rejected f ln m := by
  intro fuel
  induction fuel with
  | zero => intro in1 in2 l1 l2 h; exact absurd h (Nat.not_lt_zero _)
  | succ n ih =>
    intro in1 in2 l1 l2 h
    rw [jt_loop]
    cases hg1 : get_token in1 l1 (!fl.ignore_nl) with
    | mk t1 r1 l1n =>
    cases hg2 : get_token in2 l2 (!fl.ignore_nl) with
    | mk t2 r2 l2n =>
    cases t1 with
    | none =>
      cases t2 with
      | none => exact Or.inl rfl
      | some b =>
        by_cases htr : trailing_ok fl b r2 l2n = true
        · left
          dsimp only
          rw [if_pos htr]
        · right
          exact ⟨TFile.outfile, l1n, msg_ends_early, by dsimp only; rw [if_neg htr]⟩
    | some a =>
      cases t2 with
      | none =>
        by_cases htr : trailing_ok fl a r1 l1n = true
        · left
          dsimp only
          rw [if_pos htr]
        · right
          exact ⟨TFile.reffile, l2n, msg_garbage, by dsimp only; rw [if_neg htr]⟩
      | some b =>
        by_cases he : tokens_equal fl a b = true
        · have hr1 : r1.length < n := by
            have hlt := get_token_rest_lt in1 l1 (!fl.ignore_nl) hg1
            omega
          dsimp only
          rw [if_pos he]
          exact ih r1 r2 l1n l2n hr1
        · right
          refine ⟨TFile.outfile, l1n, msg_found a b, ?_⟩
          dsimp only
          rw [if_neg he]

theorem shuffle_main_shape (fl : ShuffleFlags) (n1 n2 d1 d2 : List Char) :
    judge_shuffle_main fl n1 n2 (some d1) (some d2) = (42, [], []) ∨
    ∃ e, judge_shuffle_main fl n1 n2 (some d1) (some d2) = (43, [], [e]) := by
  unfold judge_shuffle_main
  dsimp only
  rcases hsc : sh_compare (shuffle_read fl.shuffle_words fl.shuffle_lines (slurp fl d1))
      (shuffle_read fl.shuffle_words fl.shuffle_lines (slurp fl d2)) with _ | m
  · exact Or.inl rfl
  · exact Or.inr ⟨m, rfl⟩

/-- Counterexample to claim C3: an invocation with both positional arguments
whose contestant file cannot be opened exits with code 44 (open_read calls
die, EXIT_JUDGE_FAILURE), not 42 or 43. -/
theorem c3_counterexample :
    (judge_token_main ⟨false, false, false, false, 1, 1⟩ "out".data "ref".data none
      (some [])).1 = 44 ∧
    ¬ ((judge_token_main ⟨false, false, false, false, 1, 1⟩ "out".data "ref".data none
      (some [])).1 = 42 ∨
       (judge_token_main ⟨false, false, false, false, 1, 1⟩ "out".data "ref".data none
      (some [])).1 = 43) := by
  decide

/-- Claim C3 as amended: every judge-token and judge-shuffle invocation whose
two input files open successfully exits 42 (accept) or 43 (reject); nothing is
ever written to stdout; acceptance writes nothing to stderr and rejection
writes exactly one diagnostic line there.  When a file cannot be opened (or on
another internal failure) the judge exits 44 instead. -/
theorem c3_amended (tf : TokFlags) (sf : ShuffleFlags) (n1 n2 c1 c2 d1 d2 : List Char) :
    ((judge_token_main tf n1 n2 (some c1) (some c2)).1 = 42 ∨
     (judge_token_main tf n1 n2 (some c1) (some c2)).1 = 43) ∧
    (judge_token_main tf n1 n2 (some c1) (some c2)).2.1 = [] ∧
    ((judge_token_main tf n1 n2 (some c1) (some c2)).1 = 42 →
      (judge_token_main tf n1 n2 (some c1) (some c2)).2.2 = []) ∧
    ((judge_token_main tf n1 n2 (some c1) (some c2)).1 = 43 →
      (judge_token_main tf n1 n2 (some c1) (some c2)).2.2.length = 1) ∧
    ((judge_shuffle_main sf n1 n2 (some d1) (some d2)).1 = 42 ∨
     (judge_shuffle_main sf n1 n2 (some d1) (some d2)).1 = 43) ∧
    (judge_shuffle_main sf n1 n2 (some d1) (some d2)).2.1 = [] ∧
    ((judge_shuffle_main sf n1 n2 (some d1) (some d2)).1 = 42 →
      (judge_shuffle_main sf n1 n2 (some d1) (some d2)).2.2 = []) ∧
    ((judge_shuffle_main sf n1 n2 (some d1) (some d2)).1 = 43 →
      (judge_shuffle_main sf n1 n2 (some d1) (some d2)).2.2.length = 1) := by
  have hmain : judge_token_main tf n1 n2 (some c1) (some c2) =
      jt_render n1 n2 (jt_loop tf (c1.length + 1) c1 c2 1 1) := rfl
  have htok : judge_token_main tf n1 n2 (some c1) (some c2) = (42, [], []) ∨
      ∃ e, judge_token_main tf n1 n2 (some c1) (some c2) = (43, [], [e]) := by
    rcases jt_loop_total tf (c1.length + 1) c1 c2 1 1 (Nat.lt_succ_self _) with
      hacc | ⟨f, ln, m, hrej⟩
    · left
      rw [hmain, hacc]
      rfl
    · right
      cases f with
      | outfile =>
        refine ⟨"Error at ".data ++ n1 ++ " line ".data ++ Nat.toDigits 10 ln ++
          ": ".data ++ m, ?_⟩
        rw [hmain, hrej]
        rfl
      | reffile =>
        refine ⟨"Error at ".data ++ n2 ++ " line ".data ++ Nat.toDigits 10 ln ++
          ": ".data ++ m, ?_⟩
        rw [hmain, hrej]
        rfl
  rcases htok with h1 | ⟨e1, h1⟩ <;>
    rcases shuffle_main_shape sf n1 n2 d1 d2 with h2 | ⟨e2, h2⟩ <;>
    rw [h1, h2] <;> simp

/-- Claim C10: when the reference tokenizer is exhausted, the contestant still
yields a token, and trailing_nl does not absorb the remainder, the rejection
"Garbage at the end" is issued through t2 (the reference tokenizer), so the
stderr diagnostic names the reference file and the reference tokenizer's line
counter. -/
theorem c10_garbage_attribution (fl : TokFlags) (n1 n2 c1 c2 a r1 rem2 : List Char)
    (l1n l2n : Nat)
    (h1 : get_token c1 1 (!fl.ignore_nl) = ⟨some a, r1, l1n⟩)
    (h2 : get_token c2 1 (!fl.ignore_nl) = ⟨none, rem2, l2n⟩)
    (ht : trailing_ok fl a r1 l1n = false) :
    judge_token_main fl n1 n2 (some c1) (some c2) =
      (43, [], ["Error at ".data ++ n2 ++ " line ".data ++ Nat.toDigits 10 l2n ++
        ": ".data ++ msg_garbage]) := by
  show jt_render n1 n2 (jt_loop fl (c1.length + 1) c1 c2 1 1) = _
  rw [jt_loop, h1, h2]
  dsimp only
  rw [if_neg (by simp [ht])]
  rfl

/-- Witness for C10: contestant file "x", reference file empty. -/
theorem c10_witness :
    get_token ['x'] 1 (!(⟨false, false, false, false, 1, 1⟩ : TokFlags).ignore_nl) =
      ⟨some ['x'], [], 1⟩ ∧
    get_token [] 1 (!(⟨false, false, false, false, 1, 1⟩ : TokFlags).ignore_nl) =
      ⟨none, [], 1⟩ ∧
    trailing_ok ⟨false, false, false, false, 1, 1⟩ ['x'] [] 1 = false ∧
    judge_token_main ⟨false, false, false, false, 1, 1⟩ "out".data "ref".data
        (some ['x']) (some []) =
      (43, [], ["Error at ".data ++ "ref".data ++ " line ".data ++ Nat.toDigits 10 1 ++
        ": ".data ++ msg_garbage]) :=
  ⟨by decide, by decide, by decide,
   c10_garbage_attribution ⟨false, false, false, false, 1, 1⟩ "out".data "ref".data
     ['x'] [] ['x'] [] [] 1 1 (by decide) (by decide) (by decide)⟩


theorem slurp_toks_false_ne_nil (fl : ShuffleFlags) :
    ∀ ts, slurp_toks fl ts false ≠ [] := by
  intro ts
  cases ts with
  | nil => simp [slurp_toks]
  | cons t ts =>
    rw [slurp_toks]
    by_cases h1 : t ≠ []
    · rw [if_pos h1]
      exact List.cons_ne_nil _ _
    · rw [if_neg h1]
      by_cases h2 : fl.ignore_nl = false
      · rw [if_pos h2]
        simp
      · rw [if_neg h2]
        exact List.cons_ne_nil _ _

theorem slurp_toks_getLast (fl : ShuffleFlags) :
    ∀ (ts : List (List Char)) (nl : Bool), slurp_toks fl ts nl = [] ∨
      (slurp_toks fl ts nl).getLast? = some ([] : List Char) := by
  intro ts
  induction ts with
  | nil =>
    intro nl
    cases nl
    · right; rfl
    · left; rfl
  | cons t ts ih =>
    intro nl
    rw [slurp_toks]
    by_cases h1 : t ≠ []
    · rw [if_pos h1]
      right
      have hne := slurp_toks_false_ne_nil fl ts
      rcases ih false with h | h
      · exact absurd h hne
      · obtain ⟨hd, tl, heq⟩ := List.exists_cons_of_ne_nil hne
        rw [heq] at h ⊢
        rw [List.getLast?_cons_cons]
        exact h
    · rw [if_neg h1]
      have ht : t = [] := by push_neg at h1; exact h1
      by_cases h2 : fl.ignore_nl = false
      · rw [if_pos h2]
        by_cases h3 : (nl && fl.ignore_empty) = true
        · rw [if_pos h3]
          exact ih nl
        · rw [if_neg h3]
          right
          rcases ih true with h | h
          · rw [h, ht]
            rfl
          · have hne : slurp_toks fl ts true ≠ [] := by
              intro hh; rw [hh] at h; cases h
            obtain ⟨hd, tl, heq⟩ := List.exists_cons_of_ne_nil hne
            rw [heq] at h ⊢
            rw [List.getLast?_cons_cons]
            exact h
      · rw [if_neg h2]
        right
        rcases ih nl with h | h
        · rw [h, ht]
          rfl
        · have hne : slurp_toks fl ts nl ≠ [] := by
            intro hh; rw [hh] at h; cases h
          obtain ⟨hd, tl, heq⟩ := List.exists_cons_of_ne_nil hne
          rw [heq] at h ⊢
          rw [List.getLast?_cons_cons]
          exact h

theorem slurp_toks_eq_keep (fl : ShuffleFlags) (hie : fl.ignore_empty = true)
    (hin : fl.ignore_nl = false) :
    ∀ (ts : List (List Char)) (nl : Bool) (prev : Option (List Char)),
    (nl = true ↔ prev = none ∨ prev = some []) →
    slurp_toks fl ts nl = slurp_keep fl prev ts := by
  intro ts
  induction ts with
  | nil =>
    intro nl prev hinv
    rcases prev with _ | t
    · have hnl : nl = true := hinv.mpr (Or.inl rfl)
      subst hnl
      rfl
    · rcases t with _ | ⟨c, cs⟩
      · have hnl : nl = true := hinv.mpr (Or.inr rfl)
        subst hnl
        rfl
      · have hnl : nl = false := by
          cases nl
          · rfl
          · rcases hinv.mp rfl with h | h
            · cases h
            · injection h with h'
              cases h'
        subst hnl
        rfl
  | cons t ts ih =>
    intro nl prev hinv
    rw [slurp_toks, slurp_keep]
    by_cases h1 : t ≠ []
    · rw [if_pos h1]
      have hkc : ¬(t = [] ∧ fl.ignore_empty = true ∧ fl.ignore_nl = false ∧
          (prev = none ∨ prev = some [])) := fun hco => h1 hco.1
      rw [if_neg hkc]
      have hinv2 : (false = true) ↔ ((some t : Option (List Char)) = none ∨ some t = some []) := by
        constructor
        · intro hco; cases hco
        · rintro (hco | hco)
          · cases hco
          · injection hco with hco'
            exact absurd hco' h1
      rw [ih false (some t) hinv2]
      by_cases hic : fl.ignore_case = true
      · rw [if_pos hic, if_pos ⟨h1, hic⟩]
      · rw [if_neg hic, if_neg (fun hco => hic hco.2)]
    · push_neg at h1
      subst h1
      rw [if_neg (by simp)]
      rw [if_pos hin]
      by_cases hnl : nl = true
      · subst hnl
        rw [if_pos (by rw [hie]; rfl)]
        rw [if_pos ⟨rfl, hie, hin, hinv.mp rfl⟩]
        refine ih true (some []) ?_
        constructor
        · intro _; exact Or.inr rfl
        · intro _; rfl
      · have hnlf : nl = false := by
          cases nl
          · rfl
          · exact absurd rfl hnl
        subst hnlf
        rw [if_neg (by simp)]
        rw [if_neg (fun hco => by cases hinv.mpr hco.2.2.2)]
        rw [if_neg (fun hco => hco.1 rfl)]
        refine congrArg (List.cons []) (ih true (some []) ?_)
        constructor
        · intro _; exact Or.inr rfl
        · intro _; rfl

/-- Counterexample to claim C6: on the input "\na\n" (with -e set) the first
newline sentinel does not immediately follow another sentinel, yet slurp drops
it because the nl flag starts true; the claim predicted the stored stream
[[], "a", []] but the code stores ["a", []]. -/
theorem c6_counterexample :
    slurp ⟨false, true, false, false, false⟩ "\na\n".data = [['a'], []] ∧
    toks_of "\na\n".data true = [[], ['a'], []] ∧
    ([['a'], []] : List (List Char)) ≠ [[], ['a'], []] := by
  decide

/-- Claim C6 as amended: during judge-shuffle ingestion with -e set (and
newlines reported), a newline sentinel is dropped exactly when it is the first
raw token of the stream or immediately follows another newline sentinel
(leading blank lines are dropped as well); and at end of input a sentinel is
appended exactly when the last raw token was a word, so every non-empty stored
stream ends with a newline sentinel. -/
theorem c6_empty_line_rule (fl : ShuffleFlags) (hie : fl.ignore_empty = true)
    (hin : fl.ignore_nl = false) (ts : List (List Char)) :
    slurp_toks fl ts true = slurp_keep fl none ts ∧
    (slurp_toks fl ts true ≠ [] → (slurp_toks fl ts true).getLast? = some []) := by
  constructor
  · exact slurp_toks_eq_keep fl hie hin ts true none (by simp)
  · intro hne
    rcases slurp_toks_getLast fl ts true with h | h
    · exact absurd h hne
    · exact h

/-- Witness for C6 on the token stream [sentinel, "a"]. -/
theorem c6_witness :
    ((⟨false, true, false, false, false⟩ : ShuffleFlags).ignore_empty = true ∧
     (⟨false, true, false, false, false⟩ : ShuffleFlags).ignore_nl = false) ∧
    (slurp_toks ⟨false, true, false, false, false⟩ [[], ['a']] true =
       slurp_keep ⟨false, true, false, false, false⟩ none [[], ['a']] ∧
     (slurp_toks ⟨false, true, false, false, false⟩ [[], ['a']] true ≠ [] →
       (slurp_toks ⟨false, true, false, false, false⟩ [[], ['a']] true).getLast? =
         some [])) :=
  ⟨⟨rfl, rfl⟩, c6_empty_line_rule ⟨false, true, false, false, false⟩ rfl rfl [[], ['a']]⟩


/-! Order-theoretic facts about the judge-shuffle comparators: each comparator
decides equality exactly on equal values (the hashes are functions of the
bytes), swaps lt and gt under argument exchange, and its non-strict version is
transitive.  These make std::sort's output unique, which is what the
permutation-invariance claim rests on. -/

theorem strcmp_eq_iff : ∀ (a b : List Char), strcmp a b = Ordering.eq ↔ a = b := by
  intro a
  induction a with
  | nil =>
    intro b
    cases b with
    | nil => simp [strcmp]
    | cons y ys => simp [strcmp]
  | cons x xs ih =>
    intro b
    cases b with
    | nil => simp [strcmp]
    | cons y ys =>
      rw [strcmp]
      by_cases h1 : x < y
      · rw [if_pos h1]
        constructor
        · intro h; cases h
        · intro h
          injection h with h2 h3
          subst h2
          exact absurd h1 (lt_irrefl x)
      · rw [if_neg h1]
        by_cases h2 : y < x
        · rw [if_pos h2]
          constructor
          · intro h; cases h
          · intro h
            injection h with h3 h4
            subst h3
            exact absurd h2 (lt_irrefl x)
        · rw [if_neg h2]
          have hxy : x = y := le_antisymm (le_of_not_lt h2) (le_of_not_lt h1)
          rw [ih ys]
          constructor
          · intro h; rw [hxy, h]
          · intro h
            cases h
            rfl

theorem strcmp_lt_gt : ∀ (a b : List Char), strcmp a b = Ordering.lt ↔ strcmp b a = Ordering.gt := by
  intro a
  induction a with
  | nil =>
    intro b
    cases b with
    | nil => simp [strcmp]
    | cons y ys => simp [strcmp]
  | cons x xs ih =>
    intro b
    cases b with
    | nil => simp [strcmp]
    | cons y ys =>
      rw [strcmp, strcmp]
      by_cases h1 : x < y
      · rw [if_pos h1, if_neg (lt_asymm h1), if_pos h1]
        simp
      · by_cases h2 : y < x
        · rw [if_neg h1, if_pos h2, if_pos h2]
          simp
        · have hxy : x = y := le_antisymm (le_of_not_lt h2) (le_of_not_lt h1)
          subst hxy
          rw [if_neg (lt_irrefl x), if_neg (lt_irrefl x), if_neg (lt_irrefl x),
            if_neg (lt_irrefl x)]
          exact ih ys

theorem strcmp_le_trans : ∀ (a b c : List Char), strcmp a b ≠ Ordering.gt →
    strcmp b c ≠ Ordering.gt → strcmp a c ≠ Ordering.gt := by
  intro a
  induction a with
  | nil =>
    intro b c _ _
    cases c with
    | nil => simp [strcmp]
    | cons z zs => simp [strcmp]
  | cons x xs ih =>
    intro b c h1 h2
    cases b with
    | nil => rw [strcmp] at h1; exact absurd rfl h1
    | cons y ys =>
      cases c with
      | nil => rw [strcmp] at h2; exact absurd rfl h2
      | cons z zs =>
        rw [strcmp] at h1 h2 ⊢
        by_cases hxy : x < y
        · by_cases hyz : y < z
          · rw [if_pos (lt_trans hxy hyz)]
            simp
          · by_cases hzy : z < y
            · rw [if_neg hyz, if_pos hzy] at h2
              exact absurd rfl h2
            · have hyz2 : y = z := le_antisymm (le_of_not_lt hzy) (le_of_not_lt hyz)
              subst hyz2
              rw [if_pos hxy]
              simp
        · by_cases hyx : y < x
          · rw [if_neg hxy, if_pos hyx] at h1
            exact absurd rfl h1
          · have hxy2 : x = y := le_antisymm (le_of_not_lt hyx) (le_of_not_lt hxy)
            subst hxy2
            rw [if_neg (lt_irrefl x), if_neg (lt_irrefl x)] at h1
            by_cases hxz : x < z
            · rw [if_pos hxz]
              simp
            · by_cases hzx : z < x
              · rw [if_neg hxz, if_pos hzx] at h2
                exact absurd rfl h2
              · have hxz2 : x = z := le_antisymm (le_of_not_lt hzx) (le_of_not_lt hxz)
                subst hxz2
                rw [if_neg (lt_irrefl x), if_neg (lt_irrefl x)] at h2
                rw [if_neg (lt_irrefl x), if_neg (lt_irrefl x)]
                exact ih ys zs h1 h2

theorem natkey_eq_iff {α : Type} (f : α → Nat) (c : α → α → Ordering)
    (hE : ∀ a b, c a b = Ordering.eq ↔ a = b) (a b : α) :
    natkey_cmp f c a b = Ordering.eq ↔ a = b := by
  rw [natkey_cmp]
  by_cases h1 : f a < f b
  · rw [if_pos h1]
    constructor
    · intro h; cases h
    · intro h
      subst h
      exact absurd h1 (lt_irrefl _)
  · rw [if_neg h1]
    by_cases h2 : f b < f a
    · rw [if_pos h2]
      constructor
      · intro h; cases h
      · intro h
        subst h
        exact absurd h2 (lt_irrefl _)
    · rw [if_neg h2]
      exact hE a b

theorem natkey_lt_gt {α : Type} (f : α → Nat) (c : α → α → Ordering)
    (hS : ∀ a b, c a b = Ordering.lt ↔ c b a = Ordering.gt) (a b : α) :
    natkey_cmp f c a b = Ordering.lt ↔ natkey_cmp f c b a = Ordering.gt := by
  rw [natkey_cmp, natkey_cmp]
  by_cases h1 : f a < f b
  · rw [if_pos h1, if_neg (Nat.lt_asymm h1), if_pos h1]
    simp
  · rw [if_neg h1]
    by_cases h2 : f b < f a
    · rw [if_pos h2, if_pos h2]
      simp
    · rw [if_neg h2, if_neg h2, if_neg h1]
      exact hS a b

theorem natkey_le_trans {α : Type} (f : α → Nat) (c : α → α → Ordering)
    (hT : ∀ a b d, c a b ≠ Ordering.gt → c b d ≠ Ordering.gt → c a d ≠ Ordering.gt) :
    ∀ a b d, natkey_cmp f c a b ≠ Ordering.gt → natkey_cmp f c b d ≠ Ordering.gt →
      natkey_cmp f c a d ≠ Ordering.gt := by
  intro a b d h1 h2
  have k1 : f a ≤ f b := by
    by_contra hk
    rw [natkey_cmp, if_neg (by omega), if_pos (by omega)] at h1
    exact h1 rfl
  have k2 : f b ≤ f d := by
    by_contra hk
    rw [natkey_cmp, if_neg (by omega), if_pos (by omega)] at h2
    exact h2 rfl
  rw [natkey_cmp]
  by_cases h3 : f a < f d
  · rw [if_pos h3]
    simp
  · rw [if_neg h3, if_neg (by omega : ¬f d < f a)]
    have c1 : c a b ≠ Ordering.gt := by
      rw [natkey_cmp, if_neg (by omega), if_neg (by omega)] at h1
      exact h1
    have c2 : c b d ≠ Ordering.gt := by
      rw [natkey_cmp, if_neg (by omega), if_neg (by omega)] at h2
      exact h2
    exact hT a b d c1 c2

theorem cmp_le_total {α : Type} (C : α → α → Ordering)
    (hS : ∀ a b, C a b = Ordering.lt ↔ C b a = Ordering.gt) (a b : α) :
    C a b ≠ Ordering.gt ∨ C b a ≠ Ordering.gt := by
  rcases hv : C a b with _ | _ | _
  · left; simp
  · left; simp
  · right
    intro hgt
    have hlt := (hS b a).mpr hv
    rw [hgt] at hlt
    cases hlt

theorem cmp_le_antisymm {α : Type} (C : α → α → Ordering)
    (hE : ∀ a b, C a b = Ordering.eq ↔ a = b)
    (hS : ∀ a b, C a b = Ordering.lt ↔ C b a = Ordering.gt) (a b : α)
    (h1 : C a b ≠ Ordering.gt) (h2 : C b a ≠ Ordering.gt) : a = b := by
  rcases hv : C a b with _ | _ | _
  · exact absurd ((hS a b).mp hv) h2
  · exact (hE a b).mp hv
  · exact absurd hv h1

theorem cmp_lt_of_lt_of_le {α : Type} (C : α → α → Ordering)
    (hE : ∀ a b, C a b = Ordering.eq ↔ a = b)
    (hS : ∀ a b, C a b = Ordering.lt ↔ C b a = Ordering.gt)
    (hT : ∀ a b c, C a b ≠ Ordering.gt → C b c ≠ Ordering.gt → C a c ≠ Ordering.gt)
    (a b c : α) (h1 : C a b = Ordering.lt) (h2 : C b c ≠ Ordering.gt) :
    C a c = Ordering.lt := by
  have hne : C a c ≠ Ordering.gt := hT a b c (by rw [h1]; simp) h2
  rcases hv : C a c with _ | _ | _
  · rfl
  · exfalso
    have hac : a = c := (hE a c).mp hv
    subst hac
    exact h2 ((hS a b).mp h1)
  · exact absurd hv hne

theorem tok_cmp_eq_iff : ∀ (a b : List Char), tok_cmp a b = Ordering.eq ↔ a = b :=
  natkey_eq_iff tok_hash strcmp strcmp_eq_iff

theorem tok_cmp_lt_gt : ∀ (a b : List Char),
    tok_cmp a b = Ordering.lt ↔ tok_cmp b a = Ordering.gt :=
  natkey_lt_gt tok_hash strcmp strcmp_lt_gt

theorem tok_cmp_le_trans : ∀ (a b c : List Char), tok_cmp a b ≠ Ordering.gt →
    tok_cmp b c ≠ Ordering.gt → tok_cmp a c ≠ Ordering.gt :=
  natkey_le_trans tok_hash strcmp strcmp_le_trans

theorem toks_cmp_eq_iff : ∀ (a b : List (List Char)),
    toks_cmp a b = Ordering.eq ↔ a = b := by
  intro a
  induction a with
  | nil =>
    intro b
    cases b with
    | nil => simp [toks_cmp]
    | cons y ys => simp [toks_cmp]
  | cons x xs ih =>
    intro b
    cases b with
    | nil => simp [toks_cmp]
    | cons y ys =>
      rw [toks_cmp]
      rcases hv : tok_cmp x y with _ | _ | _
      · constructor
        · intro h; cases h
        · intro h
          injection h with h1 h2
          have heq := (tok_cmp_eq_iff x y).mpr h1
          rw [hv] at heq
          cases heq
      · have hxy : x = y := (tok_cmp_eq_iff x y).mp hv
        subst hxy
        dsimp only
        rw [ih ys]
        constructor
        · intro h; rw [h]
        · intro h
          cases h
          rfl
      · constructor
        · intro h; cases h
        · intro h
          injection h with h1 h2
          have heq := (tok_cmp_eq_iff x y).mpr h1
          rw [hv] at heq
          cases heq

theorem toks_cmp_lt_gt : ∀ (a b : List (List Char)),
    toks_cmp a b = Ordering.lt ↔ toks_cmp b a = Ordering.gt := by
  intro a
  induction a with
  | nil =>
    intro b
    cases b with
    | nil => simp [toks_cmp]
    | cons y ys => simp [toks_cmp]
  | cons x xs ih =>
    intro b
    cases b with
    | nil => simp [toks_cmp]
    | cons y ys =>
      rw [toks_cmp, toks_cmp]
      rcases hv : tok_cmp x y with _ | _ | _
      · have hgt := (tok_cmp_lt_gt x y).mp hv
        rw [hgt]
        simp
      · have hxy : x = y := (tok_cmp_eq_iff x y).mp hv
        subst hxy
        rw [hv]
        exact ih ys
      · have hlt := (tok_cmp_lt_gt y x).mpr hv
        rw [hlt]
        simp

theorem toks_cmp_le_trans : ∀ (a b c : List (List Char)), toks_cmp a b ≠ Ordering.gt →
    toks_cmp b c ≠ Ordering.gt → toks_cmp a c ≠ Ordering.gt := by
  intro a
  induction a with
  | nil =>
    intro b c _ _
    cases c with
    | nil => simp [toks_cmp]
    | cons z zs => simp [toks_cmp]
  | cons x xs ih =>
    intro b c h1 h2
    cases b with
    | nil => rw [toks_cmp] at h1; exact absurd rfl h1
    | cons y ys =>
      cases c with
      | nil => rw [toks_cmp] at h2; exact absurd rfl h2
      | cons z zs =>
        rw [toks_cmp] at h1 h2 ⊢
        rcases hxy : tok_cmp x y with _ | _ | _
        · have hyz : tok_cmp y z ≠ Ordering.gt := by
            intro hg
            rw [hg] at h2
            exact h2 rfl
          have hxz := cmp_lt_of_lt_of_le tok_cmp tok_cmp_eq_iff tok_cmp_lt_gt
            tok_cmp_le_trans x y z hxy hyz
          rw [hxz]
          simp
        · have hxyeq : x = y := (tok_cmp_eq_iff x y).mp hxy
          subst hxyeq
          rw [hxy] at h1
          rcases hxz : tok_cmp x z with _ | _ | _
          · simp
          · rw [hxz] at h2
            exact ih ys zs h1 h2
          · rw [hxz] at h2
            exact absurd rfl h2
        · rw [hxy] at h1
          exact absurd rfl h1

theorem line_cmp_eq_iff : ∀ (a b : List (List Char)),
    line_cmp a b = Ordering.eq ↔ a = b :=
  natkey_eq_iff line_hash _ (natkey_eq_iff List.length toks_cmp toks_cmp_eq_iff)

theorem line_cmp_lt_gt : ∀ (a b : List (List Char)),
    line_cmp a b = Ordering.lt ↔ line_cmp b a = Ordering.gt :=
  natkey_lt_gt line_hash _ (natkey_lt_gt List.length toks_cmp toks_cmp_lt_gt)

theorem line_cmp_le_trans : ∀ (a b c : List (List Char)), line_cmp a b ≠ Ordering.gt →
    line_cmp b c ≠ Ordering.gt → line_cmp a c ≠ Ordering.gt :=
  natkey_le_trans line_hash _ (natkey_le_trans List.length toks_cmp toks_cmp_le_trans)

theorem tok_le_total (a b : List Char) : tok_le a b ∨ tok_le b a :=
  cmp_le_total tok_cmp tok_cmp_lt_gt a b

theorem tok_le_trans (a b c : List Char) : tok_le a b → tok_le b c → tok_le a c :=
  tok_cmp_le_trans a b c

theorem tok_le_antisymm (a b : List Char) : tok_le a b → tok_le b a → a = b :=
  cmp_le_antisymm tok_cmp tok_cmp_eq_iff tok_cmp_lt_gt a b

theorem line_le_total (a b : List (List Char)) : line_le a b ∨ line_le b a :=
  cmp_le_total line_cmp line_cmp_lt_gt a b

theorem line_le_trans (a b c : List (List Char)) : line_le a b → line_le b c → line_le a c :=
  line_cmp_le_trans a b c

theorem line_le_antisymm (a b : List (List Char)) : line_le a b → line_le b a → a = b :=
  cmp_le_antisymm line_cmp line_cmp_eq_iff line_cmp_lt_gt a b

theorem sline_le_total (p q : SLine) : sline_le p q ∨ sline_le q p :=
  line_le_total p.toks q.toks

theorem sline_le_trans (p q r : SLine) : sline_le p q → sline_le q r → sline_le p r :=
  line_le_trans p.toks q.toks r.toks

theorem insertionSort_eq_of_perm {α : Type} (r : α → α → Prop) [DecidableRel r]
    (htot : ∀ a b, r a b ∨ r b a) (htrans : ∀ a b c, r a b → r b c → r a c)
    (hanti : ∀ a b, r a b → r b a → a = b)
    {l₁ l₂ : List α} (h : List.Perm l₁ l₂) :
    List.insertionSort r l₁ = List.insertionSort r l₂ := by
  haveI : IsTotal α r := ⟨htot⟩
  haveI : IsTrans α r := ⟨htrans⟩
  haveI : IsAntisymm α r := ⟨hanti⟩
  exact List.eq_of_perm_of_sorted
    ((List.perm_insertionSort r l₁).trans (h.trans (List.perm_insertionSort r l₂).symm))
    (List.sorted_insertionSort r l₁) (List.sorted_insertionSort r l₂)


theorem split_snoc_ne_nil : ∀ (l : List (List Char)), split_lines (l ++ [[]]) ≠ [] := by
  intro l
  induction l with
  | nil => decide
  | cons w l ih =>
    rw [List.cons_append, split_lines]
    by_cases hw : w = []
    · rw [if_pos hw]
      exact List.cons_ne_nil _ _
    · rw [if_neg hw]
      obtain ⟨hd, tl, heq⟩ := List.exists_cons_of_ne_nil ih
      rw [heq]
      exact List.cons_ne_nil _ _

theorem split_append_snoc : ∀ (l rest : List (List Char)),
    split_lines ((l ++ [[]]) ++ rest) = split_lines (l ++ [[]]) ++ split_lines rest := by
  intro l
  induction l with
  | nil =>
    intro rest
    simp [split_lines]
  | cons w l ih =>
    intro rest
    by_cases hw : w = []
    · subst hw
      rw [List.cons_append, List.cons_append, split_lines, if_pos rfl]
      rw [ih rest, split_lines, if_pos rfl, List.cons_append]
    · rw [List.cons_append, List.cons_append, split_lines, if_neg hw, ih rest]
      rw [split_lines, if_neg hw]
      obtain ⟨hd, tl, heq⟩ := List.exists_cons_of_ne_nil (split_snoc_ne_nil l)
      rw [heq]
      rfl

theorem split_stored : ∀ (ls : List (List (List Char))),
    split_lines (lines_to_stored ls) =
    (ls.map (fun l => split_lines (l ++ [[]]))).flatten := by
  intro ls
  induction ls with
  | nil => rfl
  | cons l ls ih =>
    rw [lines_to_stored, List.map_cons, List.flatten_cons]
    rw [split_append_snoc l]
    rw [List.map_cons, List.flatten_cons]
    congr 1

theorem split_one : ∀ (l : List (List Char)), (∀ w ∈ l, w ≠ []) →
    split_lines (l ++ [[]]) = [l] := by
  intro l
  induction l with
  | nil => intro _; rfl
  | cons w l ih =>
    intro hw
    rw [List.cons_append, split_lines, if_neg (hw w (List.mem_cons_self _ _))]
    rw [ih (fun u hu => hw u (List.mem_cons_of_mem _ hu))]

theorem flatten_singletons : ∀ (ls : List (List (List Char))),
    (ls.map (fun l => ([l] : List (List (List Char))))).flatten = ls := by
  intro ls
  induction ls with
  | nil => rfl
  | cons l ls ih =>
    rw [List.map_cons, List.flatten_cons, ih]
    rfl

theorem number_lines_toks : ∀ (n : Nat) (ls : List (List (List Char))),
    List.map SLine.toks (number_lines n ls) = ls := by
  intro n ls
  induction ls generalizing n with
  | nil => rfl
  | cons l ls ih =>
    rw [number_lines, List.map_cons, ih]

theorem map_toks_sort : ∀ (s : List SLine),
    List.map SLine.toks (List.insertionSort sline_le s) =
    List.insertionSort line_le (List.map SLine.toks s) := by
  intro s
  haveI : IsTotal (List (List Char)) line_le := ⟨line_le_total⟩
  haveI : IsTrans (List (List Char)) line_le := ⟨line_le_trans⟩
  haveI : IsAntisymm (List (List Char)) line_le := ⟨line_le_antisymm⟩
  haveI : IsTotal SLine sline_le := ⟨sline_le_total⟩
  haveI : IsTrans SLine sline_le := ⟨sline_le_trans⟩
  apply List.eq_of_perm_of_sorted (r := line_le)
  · exact ((List.perm_insertionSort sline_le s).map _).trans
      ((List.perm_insertionSort line_le (List.map SLine.toks s)).symm)
  · exact List.pairwise_map.mpr (List.sorted_insertionSort sline_le s)
  · exact List.sorted_insertionSort line_le _

theorem compare_lines_ok_iff : ∀ (s1 s2 : List SLine),
    compare_lines s1 s2 = SOutcome.ok ↔ List.map SLine.toks s1 = List.map SLine.toks s2 := by
  intro s1
  induction s1 with
  | nil =>
    intro s2
    cases s2 with
    | nil => simp [compare_lines]
    | cons l2 r2 => simp [compare_lines]
  | cons l1 r1 ih =>
    intro s2
    cases s2 with
    | nil => simp [compare_lines]
    | cons l2 r2 =>
      rw [compare_lines]
      by_cases hne : line_cmp l1.toks l2.toks ≠ Ordering.eq
      · rw [if_pos hne]
        simp only [List.map_cons, List.cons.injEq]
        constructor
        · intro h; cases h
        · rintro ⟨h1, _⟩
          exact absurd ((line_cmp_eq_iff _ _).mpr h1) hne
      · rw [if_neg hne]
        push_neg at hne
        have heq : l1.toks = l2.toks := (line_cmp_eq_iff _ _).mp hne
        rw [ih r2]
        simp [heq]

theorem sh_compare_ok_iff (s1 s2 : List SLine) :
    sh_compare s1 s2 = SOutcome.ok ↔ List.map SLine.toks s1 = List.map SLine.toks s2 := by
  rw [sh_compare]
  by_cases hlen : s1.length ≠ s2.length
  · rw [if_pos hlen]
    constructor
    · intro h; cases h
    · intro h
      have hl : s1.length = s2.length := by
        have hml := congrArg List.length h
        simpa using hml
      exact absurd hl hlen
  · rw [if_neg hlen]
    exact compare_lines_ok_iff s1 s2

theorem read_toks (sw : Bool) (st : List (List Char)) :
    List.map SLine.toks (shuffle_read sw true st) =
    List.insertionSort line_le ((split_lines st).map (wsort sw)) := by
  rw [shuffle_read, sort_lines, if_pos rfl, map_toks_sort]
  congr 1
  rw [mk_lines, number_lines_toks]

theorem accepts_congr (sw : Bool) {st1 st1' : List (List Char)} (st2 : List (List Char))
    (hp : List.Perm ((split_lines st1).map (wsort sw)) ((split_lines st1').map (wsort sw))) :
    sh_accepts sw true st1 st2 = sh_accepts sw true st1' st2 ∧
    sh_accepts sw true st2 st1 = sh_accepts sw true st2 st1' := by
  have hsort : List.insertionSort line_le ((split_lines st1).map (wsort sw)) =
      List.insertionSort line_le ((split_lines st1').map (wsort sw)) :=
    insertionSort_eq_of_perm line_le line_le_total line_le_trans line_le_antisymm hp
  have h1 : List.map SLine.toks (shuffle_read sw true st1) =
      List.map SLine.toks (shuffle_read sw true st1') := by
    rw [read_toks, read_toks, hsort]
  constructor
  · rw [sh_accepts, sh_accepts]
    apply decide_eq_decide.mpr
    rw [sh_compare_ok_iff, sh_compare_ok_iff, h1]
  · rw [sh_accepts, sh_accepts]
    apply decide_eq_decide.mpr
    rw [sh_compare_ok_iff, sh_compare_ok_iff, h1]

theorem forall₂_words_ne : ∀ {ls1 ls1p : List (List (List Char))},
    List.Forall₂ (fun l l2 => List.Perm l l2) ls1 ls1p →
    (∀ l ∈ ls1, ∀ w ∈ l, w ≠ []) → (∀ l ∈ ls1p, ∀ w ∈ l, w ≠ []) := by
  intro ls1 ls1p hf
  induction hf with
  | nil => intro _ l hl; cases hl
  | cons hpq hrest ih =>
    intro hw l hl
    rcases List.mem_cons.mp hl with h | h
    · subst h
      intro w hwmem
      exact hw _ (List.mem_cons_self _ _) w (hpq.mem_iff.mpr hwmem)
    · exact ih (fun u hu => hw u (List.mem_cons_of_mem _ hu)) l h

theorem wsort_forall₂ : ∀ {ls1 ls1p : List (List (List Char))},
    List.Forall₂ (fun l l2 => List.Perm l l2) ls1 ls1p →
    ls1.map (wsort true) = ls1p.map (wsort true) := by
  intro ls1 ls1p hf
  induction hf with
  | nil => rfl
  | cons hpq hrest ih =>
    rw [List.map_cons, List.map_cons, ih]
    congr 1
    rw [wsort, if_pos rfl, wsort, if_pos rfl]
    exact insertionSort_eq_of_perm tok_le tok_le_total tok_le_trans tok_le_antisymm hpq

/-- Claim C8: the judge-shuffle verdict with -l is invariant under permuting
the lines of either input (the contestant side and the reference side are both
stated); with -l and -w together it is additionally invariant under permuting
the words within each line (for word tokens, which are non-empty).  Inputs are
given as their ingested token buffers; lines_to_stored renders a list of lines
of words the way slurp stores a newline-terminated file. -/
theorem c8_shuffle_invariance (sw : Bool) (ls1 ls1p : List (List (List Char)))
    (st2 : List (List Char)) :
    (List.Perm ls1 ls1p →
      sh_accepts sw true (lines_to_stored ls1) st2 =
        sh_accepts sw true (lines_to_stored ls1p) st2 ∧
      sh_accepts sw true st2 (lines_to_stored ls1) =
        sh_accepts sw true st2 (lines_to_stored ls1p)) ∧
    (List.Forall₂ (fun l l2 => List.Perm l l2) ls1 ls1p →
      (∀ l ∈ ls1, ∀ w ∈ l, w ≠ []) →
      sh_accepts true true (lines_to_stored ls1) st2 =
        sh_accepts true true (lines_to_stored ls1p) st2 ∧
      sh_accepts true true st2 (lines_to_stored ls1) =
        sh_accepts true true st2 (lines_to_stored ls1p)) := by
  constructor
  · intro h
    apply accepts_congr
    have hsp : List.Perm (split_lines (lines_to_stored ls1))
        (split_lines (lines_to_stored ls1p)) := by
      rw [split_stored, split_stored]
      exact (h.map _).flatten
    exact hsp.map _
  · intro hf hw
    apply accepts_congr
    have hw2 := forall₂_words_ne hf hw
    have hs1 : split_lines (lines_to_stored ls1) = ls1 := by
      rw [split_stored]
      rw [List.map_congr_left (fun l hl => split_one l (hw l hl))]
      exact flatten_singletons ls1
    have hs1p : split_lines (lines_to_stored ls1p) = ls1p := by
      rw [split_stored]
      rw [List.map_congr_left (fun l hl => split_one l (hw2 l hl))]
      exact flatten_singletons ls1p
    rw [hs1, hs1p, wsort_forall₂ hf]

/-- Witness for C8: two one-word lines "b", "a" permuted, compared against an
ingested buffer holding the single line "a". -/
theorem c8_witness :
    List.Perm ([[['b']], [['a']]] : List (List (List Char))) [[['a']], [['b']]] ∧
    (sh_accepts false true (lines_to_stored [[['b']], [['a']]]) [['a'], []] =
       sh_accepts false true (lines_to_stored [[['a']], [['b']]]) [['a'], []] ∧
     sh_accepts false true [['a'], []] (lines_to_stored [[['b']], [['a']]]) =
       sh_accepts false true [['a'], []] (lines_to_stored [[['a']], [['b']]])) :=
  ⟨by decide,
   (c8_shuffle_invariance false [[['b']], [['a']]] [[['a']], [['b']]] [['a'], []]).1
     (by decide)⟩

end Pisek
